import Mathlib

/-!
Verification of the mesh-batching system in
`src/instancing/material/systems/prepare_mesh_batches.rs`.

The system groups meshes by their `InstancedMeshKey` using BTreeMap/BTreeSet,
then per group concatenates vertex bytes, merges and re-bases index buffers,
and synthesizes indirect draw arguments.  Mesh identities (`Handle<Mesh>`)
are modelled as `Nat` with the handle total order; BTree collections are
modelled as strictly sorted lists; a Rust panic is modelled as `none`;
u16/u32 machine arithmetic is modelled on `Nat` with explicit `% 2^16` /
`% 2^32` (release-profile wrapping semantics, and the `as u16` truncating
cast of line 116).
-/

namespace BevyInstancing

/-- Modelled from the spec: the width named by `index_format` — the index
buffer holds unsigned integers in one fixed width, 16-bit or 32-bit.  The
type itself is declared outside `src` (wgpu/bevy). -/
inductive IndexFormat where
  | Uint16 : IndexFormat
  | Uint32 : IndexFormat
deriving DecidableEq

/-- Modelled from the spec: `indices` is an ordered sequence of unsigned
integers in one fixed width (declared in bevy, outside `src`).  Values are
`Nat`s; the width bound (`v < 2^16` resp. `v < 2^32`) is a wellformedness
side condition where a theorem needs it. -/
inductive Indices where
  | U16 : List Nat → Indices
  | U32 : List Nat → Indices
deriving DecidableEq

/-- Modelled from the spec: the `index_buffer_data` variant of a mesh record
(declared in plugin.rs, outside `src`): `Indexed { indices, index_count,
index_format }` or `NonIndexed { vertex_count }`; the counts are u32 fields. -/
inductive GpuIndexBufferData where
  | Indexed : Indices → Nat → IndexFormat → GpuIndexBufferData
  | NonIndexed : Nat → GpuIndexBufferData
deriving DecidableEq

/-- Modelled from the spec: the structural signature.  It must encode the
presence/width of the index buffer (`index_format`, read at line 162 of the
source) and the remaining layout/topology data, abstracted as a `Nat`;
it carries a total order (used by the BTreeMap). -/
structure InstancedMeshKey where
  layout : Nat
  index_format : Option IndexFormat
deriving DecidableEq

/-- A code below 4 for the index-format component of a key. -/
def fmtCode : Option IndexFormat → Nat
  | none => 0
  | some .Uint16 => 1
  | some .Uint32 => 2

/-- Injective encoding of `InstancedMeshKey` into `Nat`, giving the total
order the source's BTreeMap sorts keys by. -/
def InstancedMeshKey.enc (k : InstancedMeshKey) : Nat :=
  4 * k.layout + fmtCode k.index_format

/-- Modelled from the spec: one record per distinct mesh asset in the
external mesh-data table (`RenderMeshes`, declared outside `src`): signature,
raw vertex bytes, vertex count (u32), and the index-buffer variant. -/
structure MeshRecord where
  key : InstancedMeshKey
  vertex_buffer_data : List Nat
  vertex_count : Nat
  index_buffer_data : GpuIndexBufferData
deriving DecidableEq

/-- Modelled from the spec: an indexed indirect draw argument record;
the count field plus instance count and start offsets, all defaulting
to zero (`..default()` in the source). -/
structure DrawIndexedIndirect where
  vertex_count : Nat
  instance_count : Nat
  base_index : Nat
  vertex_offset : Nat
  base_instance : Nat
deriving DecidableEq

/-- Modelled from the spec: a non-indexed indirect draw argument record. -/
structure DrawIndirect where
  vertex_count : Nat
  instance_count : Nat
  base_vertex : Nat
  base_instance : Nat
deriving DecidableEq

/-- Modelled from the spec: the per-batch indirect buffer, an ordered
sequence of draw arguments of the batch's kind (declared in plugin.rs). -/
inductive GpuIndirectData where
  | Indexed : List DrawIndexedIndirect → GpuIndirectData
  | NonIndexed : List DrawIndirect → GpuIndirectData
deriving DecidableEq

/-- Modelled from the spec: one output batch per signature.  `index_data` is
an `Option` because the source stores the fold accumulator directly
(`fold(None, ...)`, line 97). -/
structure MeshBatch where
  meshes : List Nat
  vertex_data : List Nat
  index_data : Option GpuIndexBufferData
  indirect_data : GpuIndirectData
deriving DecidableEq

/-- The external mesh-data table: mesh identity → record (`RenderMeshes.
instanced_meshes`); `none` models an identity with no entry. -/
abbrev RenderMeshes : Type := Nat → Option MeshRecord

/-- Embeds `BTreeSet<Handle<Mesh>>::insert`: sorted-insert without
duplicates into a strictly increasing list of mesh identities. -/
def insertMesh (m : Nat) : List Nat → List Nat
  | [] => [m]
  | x :: xs =>
    if m < x then m :: x :: xs
    else if m = x then x :: xs
    else x :: insertMesh m xs

/-- Embeds `keyed_meshes.entry(mesh.key.clone()).or_default().insert(handle)`
(lines 73-76): association list kept strictly increasing in key encoding,
each group a strictly increasing identity set. -/
def insertKeyed (k : InstancedMeshKey) (m : Nat) :
    List (InstancedMeshKey × List Nat) → List (InstancedMeshKey × List Nat)
  | [] => [(k, [m])]
  | (k', g) :: t =>
    if k.enc < k'.enc then (k, [m]) :: (k', g) :: t
    else if k.enc = k'.enc then (k', insertMesh m g) :: t
    else (k', g) :: insertKeyed k m t

/-- Embeds the keying loop (lines 65-79): for each referenced mesh handle in
stream order, unwrap its record (panic = `none`) and insert the handle into
the set keyed by the record's signature. -/
def keyMeshes (rm : RenderMeshes) (t : List (InstancedMeshKey × List Nat)) :
    List Nat → Option (List (InstancedMeshKey × List Nat))
  | [] => some t
  | h :: hs =>
    match rm h with
    | none => none
    | some r => keyMeshes rm (insertKeyed r.key h t) hs

/-- The keying stage: both reference streams chained, starting from the empty
map (line 66). -/
def keyedMeshes (rm : RenderMeshes) (refs : List Nat) :
    Option (List (InstancedMeshKey × List Nat)) :=
  keyMeshes rm [] refs

/-- Embeds the vertex-data stage (lines 86-93): `flat_map` over the `Option`
lookup — a missing member is silently skipped here, there is no unwrap in
this stage — then byte concatenation in group order. -/
def vertexData (rm : RenderMeshes) (meshes : List Nat) : List Nat :=
  ((meshes.filterMap rm).map MeshRecord.vertex_buffer_data).flatten

/-- The `out` match of one index_data fold step (lines 100-152), on the
accumulator, the running `base_index` and the member's index-buffer value.
`none` is the `panic!` on a kind or width mismatch.  A merged 16-bit value
is `base_index as u16 + *idx` in wrapping u16 arithmetic (line 116); a
32-bit one is `base_index as u32 + *idx` in wrapping u32 arithmetic
(line 124); counts accumulate in wrapping u32 arithmetic. -/
def indexMergeOut (acc : Option GpuIndexBufferData) (base : Nat) :
    GpuIndexBufferData → Option (Option GpuIndexBufferData)
  | .Indexed indices index_count index_format =>
    match acc with
    | some (.Indexed accIndices accCount _) =>
      match accIndices, indices with
      | .U16 lhs, .U16 rhs =>
        some (some (.Indexed
          (.U16 (lhs ++ rhs.map (fun idx => (base % 2 ^ 16 + idx) % 2 ^ 16)))
          ((index_count + accCount) % 2 ^ 32) index_format))
      | .U32 lhs, .U32 rhs =>
        some (some (.Indexed
          (.U32 (lhs ++ rhs.map (fun idx => (base + idx) % 2 ^ 32)))
          ((index_count + accCount) % 2 ^ 32) index_format))
      | _, _ => none
    | none => some (some (.Indexed indices index_count index_format))
    | some (.NonIndexed _) => none
  | .NonIndexed vertex_count =>
    match acc with
    | some (.NonIndexed accVC) =>
      some (some (.NonIndexed ((vertex_count + accVC) % 2 ^ 32)))
    | none => some (some (.NonIndexed vertex_count))
    | some (.Indexed _ _ _) => none

/-- One step of the index_data fold (lines 100-156) on a state
`(base_index, acc)`.  After a successful step `base_index` advances by the
member's `vertex_count` in wrapping u32 arithmetic (line 154), regardless
of the member's variant. -/
def indexDataStep (st : Nat × Option GpuIndexBufferData) (r : MeshRecord) :
    Option (Nat × Option GpuIndexBufferData) :=
  match indexMergeOut st.2 st.1 r.index_buffer_data with
  | none => none
  | some o => some ((st.1 + r.vertex_count) % 2 ^ 32, o)

/-- The index_data fold at record level, threading `(base_index, acc)`. -/
def foldIndex (st : Nat × Option GpuIndexBufferData) :
    List MeshRecord → Option (Nat × Option GpuIndexBufferData)
  | [] => some st
  | r :: rs =>
    match indexDataStep st r with
    | none => none
    | some st' => foldIndex st' rs

/-- The merged index accumulator for a list of already-looked-up records,
starting from `base_index = 0` and accumulator `None` (lines 95-97). -/
def indexDataRecs (rs : List MeshRecord) : Option (Option GpuIndexBufferData) :=
  (foldIndex (0, none) rs).map Prod.snd

/-- Embeds lines 95-158 as written: the per-member `unwrap` of the record
lookup (line 98) interleaved with the fold. -/
def indexData (rm : RenderMeshes) (st : Nat × Option GpuIndexBufferData) :
    List Nat → Option (Nat × Option GpuIndexBufferData)
  | [] => some st
  | h :: hs =>
    match rm h with
    | none => none
    | some r =>
      match indexDataStep st r with
      | none => none
      | some st' => indexData rm st' hs

/-- The index-merge stage of a group: merged accumulator or panic. -/
def indexDataOf (rm : RenderMeshes) (meshes : List Nat) :
    Option (Option GpuIndexBufferData) :=
  (indexData rm (0, none) meshes).map Prod.snd

/-- Embeds the indexed branch of the indirect-data stage (lines 163-180):
per member, unwrap the record, require the `Indexed` variant (panic
otherwise — the width is not inspected), advance the dead running offset in
wrapping u32, and emit an argument whose count field is that member's
`index_count` with all other fields defaulted. -/
def indirectIndexed (rm : RenderMeshes) (base : Nat) :
    List Nat → Option (List DrawIndexedIndirect)
  | [] => some []
  | h :: hs =>
    match rm h with
    | none => none
    | some r =>
      match r.index_buffer_data with
      | .Indexed _ ic _ =>
        (indirectIndexed rm ((base + ic) % 2 ^ 32) hs).map
          (fun l => { vertex_count := ic, instance_count := 0, base_index := 0,
                      vertex_offset := 0, base_instance := 0 } :: l)
      | .NonIndexed _ => none

/-- Embeds the non-indexed branch of the indirect-data stage
(lines 181-198). -/
def indirectNonIndexed (rm : RenderMeshes) (base : Nat) :
    List Nat → Option (List DrawIndirect)
  | [] => some []
  | h :: hs =>
    match rm h with
    | none => none
    | some r =>
      match r.index_buffer_data with
      | .NonIndexed vc =>
        (indirectNonIndexed rm ((base + vc) % 2 ^ 32) hs).map
          (fun l => { vertex_count := vc, instance_count := 0, base_vertex := 0,
                      base_instance := 0 } :: l)
      | .Indexed _ _ _ => none

/-- The indirect-data stage (lines 160-199): branch on the group key's
`index_format`, starting the running offset at `0u32`. -/
def indirectData (rm : RenderMeshes) (key : InstancedMeshKey)
    (meshes : List Nat) : Option GpuIndirectData :=
  match key.index_format with
  | some _ => (indirectIndexed rm 0 meshes).map GpuIndirectData.Indexed
  | none => (indirectNonIndexed rm 0 meshes).map GpuIndirectData.NonIndexed

/-- Assembly of one batch (lines 85-209): vertex data (infallible),
index merge, indirect synthesis; a panic in either stage aborts. -/
def buildBatch (rm : RenderMeshes) (k : InstancedMeshKey)
    (meshes : List Nat) : Option MeshBatch :=
  match indexDataOf rm meshes, indirectData rm k meshes with
  | some idx, some ind =>
    some { meshes := meshes, vertex_data := vertexData rm meshes,
           index_data := idx, indirect_data := ind }
  | _, _ => none

/-- The batch-assembly map over all keyed groups (lines 83-211). -/
def buildBatches (rm : RenderMeshes) :
    List (InstancedMeshKey × List Nat) →
    Option (List (InstancedMeshKey × MeshBatch))
  | [] => some []
  | (k, g) :: t =>
    match buildBatch rm k g with
    | none => none
    | some b =>
      match buildBatches rm t with
      | none => none
      | some rest => some ((k, b) :: rest)

/-- The whole pass: key the chained reference streams, then assemble every
batch; `none` models a panic anywhere in the pass. -/
def computeMeshBatches (rm : RenderMeshes) (instanceRefs sliceRefs : List Nat) :
    Option (List (InstancedMeshKey × MeshBatch)) :=
  match keyedMeshes rm (instanceRefs ++ sliceRefs) with
  | none => none
  | some t => buildBatches rm t

/-- Embeds the system (lines 49-213): the resource assignment at line 82
happens only after the right-hand side is fully built, so on a panic the
old table is kept; otherwise the table is replaced whole. -/
def runSystem (rm : RenderMeshes) (instanceRefs sliceRefs : List Nat)
    (old : List (InstancedMeshKey × MeshBatch)) :
    List (InstancedMeshKey × MeshBatch) :=
  match computeMeshBatches rm instanceRefs sliceRefs with
  | none => old
  | some t => t

/-! Spec-side definitions, written from the claims' words, to be compared
with the embedded stages. -/

/-- The modulus of one index width: `2^16` for 16-bit, `2^32` for 32-bit. -/
def wmod : Bool → Nat
  | true => 2 ^ 16
  | false => 2 ^ 32

/-- Build an `Indices` value of the given width (`true` = 16-bit). -/
def mkIndices : Bool → List Nat → Indices
  | true, vals => .U16 vals
  | false, vals => .U32 vals

/-- The raw index values a record contributes. -/
def recVals (r : MeshRecord) : List Nat :=
  match r.index_buffer_data with
  | .Indexed (.U16 vals) _ _ => vals
  | .Indexed (.U32 vals) _ _ => vals
  | .NonIndexed _ => []

/-- The `index_count` of an indexed record (0 for non-indexed). -/
def recCount (r : MeshRecord) : Nat :=
  match r.index_buffer_data with
  | .Indexed _ c _ => c
  | .NonIndexed _ => 0

/-- The `index_format` field of an indexed record. -/
def recFmt (r : MeshRecord) : IndexFormat :=
  match r.index_buffer_data with
  | .Indexed _ _ f => f
  | .NonIndexed _ => .Uint16

/-- The `vertex_count` stored in a `NonIndexed` variant (0 otherwise). -/
def recNonVC (r : MeshRecord) : Nat :=
  match r.index_buffer_data with
  | .NonIndexed vc => vc
  | .Indexed _ _ _ => 0

/-- Whether a record is indexed with width `b` (`true` = 16-bit). -/
def isIndexedRec (b : Bool) (r : MeshRecord) : Bool :=
  match r.index_buffer_data with
  | .Indexed (.U16 _) _ _ => b
  | .Indexed (.U32 _) _ _ => !b
  | .NonIndexed _ => false

/-- Wellformedness of an indexed member of width `b`: its count fits in u32
and every raw index value fits its width. -/
def recWF (b : Bool) (r : MeshRecord) : Bool :=
  isIndexedRec b r && decide (recCount r < 2 ^ 32) &&
    (recVals r).all (fun v => decide (v < wmod b))

/-- Whether a record is non-indexed. -/
def isNonIndexedRec (r : MeshRecord) : Bool :=
  match r.index_buffer_data with
  | .NonIndexed _ => true
  | .Indexed _ _ _ => false

/-- Wellformedness of a non-indexed member: its stored vertex count fits
in u32. -/
def nonWF (r : MeshRecord) : Bool :=
  isNonIndexedRec r && decide (recNonVC r < 2 ^ 32)

/-- The indexed/non-indexed kind of an index-buffer value. -/
def ibdKind : GpuIndexBufferData → Bool
  | .Indexed _ _ _ => true
  | .NonIndexed _ => false

/-- The width of an indexed value (`some true` = 16-bit), `none` when
non-indexed. -/
def ibdWidth : GpuIndexBufferData → Option Bool
  | .Indexed (.U16 _) _ _ => some true
  | .Indexed (.U32 _) _ _ => some false
  | .NonIndexed _ => none

/-- The claim's merged index sequence: member `i`'s raw values shifted by
the total `vertex_count` of the members before it, reduced by the width
modulus. -/
def mergedVals (b : Bool) (base : Nat) : List MeshRecord → List Nat
  | [] => []
  | r :: rs =>
    (recVals r).map (fun v => (v + base) % wmod b) ++
      mergedVals b (base + r.vertex_count) rs

/-- Sum of the members' vertex counts. -/
def sumVerts (rs : List MeshRecord) : Nat := (rs.map MeshRecord.vertex_count).sum

/-- Sum of the members' index counts. -/
def sumCounts (rs : List MeshRecord) : Nat := (rs.map recCount).sum

/-- Sum of the members' non-indexed vertex counts. -/
def sumNonVC (rs : List MeshRecord) : Nat := (rs.map recNonVC).sum

/-- The `index_format` of the last record (the merge keeps the newest
member's format field), with a default for the empty list. -/
def lastFmt (f : IndexFormat) : List MeshRecord → IndexFormat
  | [] => f
  | r :: rs => lastFmt (recFmt r) rs

/-- Interleaved unwrap of every member's record, as the index and indirect
stages perform it. -/
def lookupAll (rm : RenderMeshes) : List Nat → Option (List MeshRecord)
  | [] => some []
  | h :: hs =>
    match rm h with
    | none => none
    | some r => (lookupAll rm hs).map (r :: ·)

/-- Association-list lookup in a keyed table; `[]` for an absent key. -/
def tlookup (k : InstancedMeshKey) : List (InstancedMeshKey × List Nat) → List Nat
  | [] => []
  | (k', g) :: t => if k = k' then g else tlookup k t

/-- Wellformedness of a keyed table: keys strictly increasing in the key
encoding, every group strictly increasing and nonempty. -/
def TableWF (t : List (InstancedMeshKey × List Nat)) : Prop :=
  t.Pairwise (fun a b => a.1.enc < b.1.enc) ∧
    ∀ p ∈ t, p.2.Pairwise (· < ·) ∧ p.2 ≠ []

/-- The spec-side indexed draw argument of one member: count field from the
member's `index_count`, every other field neutral. -/
def drawOf (r : MeshRecord) : DrawIndexedIndirect :=
  { vertex_count := recCount r, instance_count := 0, base_index := 0,
    vertex_offset := 0, base_instance := 0 }

/-- The spec-side non-indexed draw argument of one member. -/
def drawNonOf (r : MeshRecord) : DrawIndirect :=
  { vertex_count := recNonVC r, instance_count := 0, base_vertex := 0,
    base_instance := 0 }

/-- The claim's exact (un-wrapped) merged index sequence: member `i`'s raw
values shifted by the total `vertex_count` of the members before it, with
no modulus. -/
def mergedValsExact (base : Nat) : List MeshRecord → List Nat
  | [] => []
  | r :: rs =>
    (recVals r).map (fun v => v + base) ++ mergedValsExact (base + r.vertex_count) rs

/-! Concrete inputs used by counterexamples and witnesses. -/

/-- A signature for 16-bit indexed groups. -/
def keyU16 : InstancedMeshKey := { layout := 0, index_format := some .Uint16 }

/-- A signature for non-indexed groups. -/
def keyNon : InstancedMeshKey := { layout := 1, index_format := none }

/-- The spec §8 scenario mesh A: 4 vertices, 16-bit indices [0,1,2,0,2,3]. -/
def specMeshA : MeshRecord :=
  { key := keyU16, vertex_buffer_data := [10, 11, 12], vertex_count := 4,
    index_buffer_data := .Indexed (.U16 [0, 1, 2, 0, 2, 3]) 6 .Uint16 }

/-- The spec §8 scenario mesh B: 3 vertices, 16-bit indices [0,1,2]. -/
def specMeshB : MeshRecord :=
  { key := keyU16, vertex_buffer_data := [20, 21], vertex_count := 3,
    index_buffer_data := .Indexed (.U16 [0, 1, 2]) 3 .Uint16 }

/-- A 16-bit indexed mesh claiming 65536 vertices. -/
def wrapMeshA : MeshRecord :=
  { key := keyU16, vertex_buffer_data := [], vertex_count := 65536,
    index_buffer_data := .Indexed (.U16 [0]) 1 .Uint16 }

/-- A small 16-bit indexed mesh merged after `wrapMeshA`. -/
def wrapMeshB : MeshRecord :=
  { key := keyU16, vertex_buffer_data := [], vertex_count := 3,
    index_buffer_data := .Indexed (.U16 [5]) 1 .Uint16 }

/-- A 32-bit indexed mesh, for width-mismatch scenarios. -/
def mesh32 : MeshRecord :=
  { key := keyU16, vertex_buffer_data := [30], vertex_count := 5,
    index_buffer_data := .Indexed (.U32 [0, 2]) 2 .Uint32 }

/-- A non-indexed mesh whose vertex count is `2^31`. -/
def bigNonMesh : MeshRecord :=
  { key := keyNon, vertex_buffer_data := [], vertex_count := 2 ^ 31,
    index_buffer_data := .NonIndexed (2 ^ 31) }

/-- A small non-indexed mesh. -/
def smallNonMesh : MeshRecord :=
  { key := keyNon, vertex_buffer_data := [40], vertex_count := 3,
    index_buffer_data := .NonIndexed 3 }

/-- A two-mesh table holding the spec §8 scenario meshes. -/
def rmSpec : RenderMeshes :=
  fun n => if n = 0 then some specMeshA else if n = 1 then some specMeshB else none

/-- A table holding the two wrap-scenario meshes. -/
def rmWrap : RenderMeshes :=
  fun n => if n = 0 then some wrapMeshA else if n = 1 then some wrapMeshB else none

/-- A table holding one 16-bit and one 32-bit indexed mesh. -/
def rmWidth : RenderMeshes :=
  fun n => if n = 0 then some specMeshA else if n = 1 then some mesh32 else none

/-- A table holding one indexed and one non-indexed mesh. -/
def rmKind : RenderMeshes :=
  fun n => if n = 0 then some specMeshA else if n = 1 then some smallNonMesh else none

/-- A table holding two non-indexed meshes and the small one. -/
def rmNon : RenderMeshes :=
  fun n => if n = 0 then some bigNonMesh else if n = 1 then some bigNonMesh
    else if n = 2 then some smallNonMesh else none

/-! Lemmas about the interleaved lookups. -/

theorem lookupAll_length {rm : RenderMeshes} :
    ∀ {hs rs}, lookupAll rm hs = some rs → rs.length = hs.length := by
  intro hs
  induction hs with
  | nil => intro rs h; simp [lookupAll] at h; simp [h.symm]
  | cons h hs ih =>
    intro rs hlk
    simp only [lookupAll] at hlk
    cases hrm : rm h with
    | none => rw [hrm] at hlk; exact absurd hlk (by simp)
    | some r =>
      rw [hrm] at hlk
      rcases Option.map_eq_some'.mp hlk with ⟨rs', hrs', hcons⟩
      subst hcons
      simp [ih hrs']

theorem filterMap_eq_of_lookupAll {rm : RenderMeshes} :
    ∀ {hs rs}, lookupAll rm hs = some rs → hs.filterMap rm = rs := by
  intro hs
  induction hs with
  | nil => intro rs h; simp [lookupAll] at h; simp [h.symm]
  | cons h hs ih =>
    intro rs hlk
    simp only [lookupAll] at hlk
    cases hrm : rm h with
    | none => rw [hrm] at hlk; exact absurd hlk (by simp)
    | some r =>
      rw [hrm] at hlk
      rcases Option.map_eq_some'.mp hlk with ⟨rs', hrs', hcons⟩
      subst hcons
      simp [List.filterMap_cons, hrm, ih hrs']

/-- A missing record aborts the keying loop, wherever it starts from. -/
theorem keyMeshes_none_of_missing {rm : RenderMeshes} {h : Nat} :
    ∀ {refs} (t : List (InstancedMeshKey × List Nat)),
      h ∈ refs → rm h = none → keyMeshes rm t refs = none := by
  intro refs
  induction refs with
  | nil => intro t hmem; exact absurd hmem (by simp)
  | cons x xs ih =>
    intro t hmem hmiss
    simp only [keyMeshes]
    cases hx : rm x with
    | none => rfl
    | some r =>
      have hne : h ≠ x := by
        intro he; rw [he, hx] at hmiss; exact Option.noConfusion hmiss
      have : h ∈ xs := by
        rcases List.mem_cons.mp hmem with h1 | h1
        · exact absurd h1 hne
        · exact h1
      exact ih _ this hmiss

/-- C3: a referenced mesh identity with no entry in the mesh-data table makes
the keying stage panic (`none`), so the pass aborts and the prior batch table
is kept: no batch referencing the mesh is ever emitted. -/
theorem c3_missing_mesh_panics (rm : RenderMeshes)
    (instanceRefs sliceRefs : List Nat)
    (old : List (InstancedMeshKey × MeshBatch)) (h : Nat)
    (hmem : h ∈ instanceRefs ++ sliceRefs) (hmiss : rm h = none) :
    keyedMeshes rm (instanceRefs ++ sliceRefs) = none ∧
      runSystem rm instanceRefs sliceRefs old = old := by
  have hk : keyedMeshes rm (instanceRefs ++ sliceRefs) = none :=
    keyMeshes_none_of_missing [] hmem hmiss
  refine ⟨hk, ?_⟩
  simp [runSystem, computeMeshBatches, hk]

theorem c3_missing_mesh_panics_witness :
    keyedMeshes (fun _ => none) ([0] ++ []) = none ∧
      runSystem (fun _ => none) [0] [] [] = [] :=
  c3_missing_mesh_panics (fun _ => none) [0] [] [] 0 (by decide) rfl

/-- C4: on any fatal failure of the pass the resource assignment never
happens: the output table is exactly the table from before the pass. -/
theorem c4_no_partial_publish (rm : RenderMeshes)
    (instanceRefs sliceRefs : List Nat)
    (old : List (InstancedMeshKey × MeshBatch))
    (hfail : computeMeshBatches rm instanceRefs sliceRefs = none) :
    runSystem rm instanceRefs sliceRefs old = old := by
  simp [runSystem, hfail]

theorem c4_no_partial_publish_witness :
    runSystem (fun _ => none) [0] [] [] = [] :=
  c4_no_partial_publish (fun _ => none) [0] [] [] rfl

/-- C7: the batch's vertex data is the verbatim concatenation, in group
order, of the members' vertex buffer bytes, and its length is the sum of the
members' buffer lengths. -/
theorem c7_vertex_concat (rm : RenderMeshes) (meshes : List Nat)
    (rs : List MeshRecord) (hlk : lookupAll rm meshes = some rs) :
    vertexData rm meshes = (rs.map MeshRecord.vertex_buffer_data).flatten ∧
      (vertexData rm meshes).length =
        (rs.map (fun r => r.vertex_buffer_data.length)).sum := by
  have hfm : meshes.filterMap rm = rs := filterMap_eq_of_lookupAll hlk
  constructor
  · simp [vertexData, hfm]
  · simp only [vertexData, hfm, List.length_flatten, List.map_map]
    rfl

theorem c7_vertex_concat_witness :
    vertexData rmSpec [0, 1] =
        ([specMeshA, specMeshB].map MeshRecord.vertex_buffer_data).flatten ∧
      (vertexData rmSpec [0, 1]).length =
        ([specMeshA, specMeshB].map (fun r => r.vertex_buffer_data.length)).sum :=
  c7_vertex_concat rmSpec [0, 1] [specMeshA, specMeshB] rfl

/-! Lemmas about the index-merge fold. -/

@[simp] theorem sumVerts_nil : sumVerts [] = 0 := rfl

@[simp] theorem sumVerts_cons {r : MeshRecord} {rs : List MeshRecord} :
    sumVerts (r :: rs) = r.vertex_count + sumVerts rs := by
  simp [sumVerts]

@[simp] theorem sumCounts_nil : sumCounts [] = 0 := rfl

@[simp] theorem sumCounts_cons {r : MeshRecord} {rs : List MeshRecord} :
    sumCounts (r :: rs) = recCount r + sumCounts rs := by
  simp [sumCounts]

@[simp] theorem sumNonVC_nil : sumNonVC [] = 0 := rfl

@[simp] theorem sumNonVC_cons {r : MeshRecord} {rs : List MeshRecord} :
    sumNonVC (r :: rs) = recNonVC r + sumNonVC rs := by
  simp [sumNonVC]

theorem indexDataStep_fst {st : Nat × Option GpuIndexBufferData} {r : MeshRecord}
    {st' : Nat × Option GpuIndexBufferData} (h : indexDataStep st r = some st') :
    st'.1 = (st.1 + r.vertex_count) % 2 ^ 32 := by
  unfold indexDataStep at h
  cases hout : indexMergeOut st.2 st.1 r.index_buffer_data with
  | none => rw [hout] at h; exact Option.noConfusion h
  | some o =>
    rw [hout] at h
    obtain rfl := Option.some.inj h
    rfl

/-- The running `base_index` of a successful fold advances by every member's
`vertex_count`, whatever the members' variants are. -/
theorem foldIndex_fst :
    ∀ {rs : List MeshRecord} {st st' : Nat × Option GpuIndexBufferData},
      foldIndex st rs = some st' → st.1 < 2 ^ 32 →
      st'.1 = (st.1 + sumVerts rs) % 2 ^ 32 := by
  intro rs
  induction rs with
  | nil =>
    intro st st' h hlt
    simp only [foldIndex] at h
    obtain rfl := Option.some.inj h
    rw [sumVerts_nil, Nat.add_zero, Nat.mod_eq_of_lt hlt]
  | cons r rs ih =>
    intro st st' h hlt
    simp only [foldIndex] at h
    cases hstep : indexDataStep st r with
    | none => rw [hstep] at h; exact Option.noConfusion h
    | some st1 =>
      rw [hstep] at h
      have h1 : st1.1 = (st.1 + r.vertex_count) % 2 ^ 32 := indexDataStep_fst hstep
      have h2 := ih h (by rw [h1]; exact Nat.mod_lt _ (by norm_num))
      rw [h2, h1, sumVerts_cons]
      omega

theorem isIndexedRec_shape {b : Bool} {r : MeshRecord}
    (h : isIndexedRec b r = true) :
    r.index_buffer_data = .Indexed (mkIndices b (recVals r)) (recCount r) (recFmt r) := by
  cases hibd : r.index_buffer_data with
  | NonIndexed vc => simp [isIndexedRec, hibd] at h
  | Indexed ind c f =>
    cases ind with
    | U16 vals =>
      cases b with
      | false => simp [isIndexedRec, hibd] at h
      | true => simp [recVals, recCount, recFmt, mkIndices, hibd]
    | U32 vals =>
      cases b with
      | true => simp [isIndexedRec, hibd] at h
      | false => simp [recVals, recCount, recFmt, mkIndices, hibd]

theorem isNonIndexedRec_shape {r : MeshRecord}
    (h : isNonIndexedRec r = true) :
    r.index_buffer_data = .NonIndexed (recNonVC r) := by
  cases hibd : r.index_buffer_data with
  | Indexed ind c f => simp [isNonIndexedRec, hibd] at h
  | NonIndexed vc => simp [recNonVC, hibd]

/-- Invariant of the index_data fold over an all-indexed suffix: starting
from base `S % 2^32` and an accumulator of width `b`, the fold appends every
member's values shifted by the true running vertex prefix sum reduced mod
the width, sums the counts mod `2^32`, and keeps the newest format. -/
theorem foldIndex_indexed_inv (b : Bool) :
    ∀ (rs : List MeshRecord) (S : Nat) (accVals : List Nat) (c : Nat)
      (f : IndexFormat),
      (∀ r ∈ rs, recWF b r = true) → c < 2 ^ 32 →
      foldIndex (S % 2 ^ 32, some (.Indexed (mkIndices b accVals) c f)) rs =
        some ((S + sumVerts rs) % 2 ^ 32,
          some (.Indexed (mkIndices b (accVals ++ mergedVals b S rs))
            ((c + sumCounts rs) % 2 ^ 32) (lastFmt f rs))) := by
  intro rs
  induction rs with
  | nil =>
    intro S accVals c f _ hc
    simp only [foldIndex, mergedVals, lastFmt, sumVerts_nil, sumCounts_nil,
      Nat.add_zero, List.append_nil, Nat.mod_eq_of_lt hc]
  | cons r rs ih =>
    intro S accVals c f hwf hc
    have hr := hwf r (List.mem_cons_self r rs)
    simp only [recWF, Bool.and_eq_true, decide_eq_true_eq,
      List.all_eq_true] at hr
    obtain ⟨⟨hidx, hcnt⟩, hvals⟩ := hr
    have hshape := isIndexedRec_shape hidx
    have hrest : ∀ x ∈ rs, recWF b x = true := fun x hx =>
      hwf x (List.mem_cons_of_mem r hx)
    have hclt : (recCount r + c) % 2 ^ 32 < 2 ^ 32 := Nat.mod_lt _ (by norm_num)
    have ihh := ih (S + r.vertex_count)
      (accVals ++ (recVals r).map (fun v => (v + S) % wmod b))
      ((recCount r + c) % 2 ^ 32) (recFmt r) hrest hclt
    cases b with
    | true =>
      have hmapf : (recVals r).map
            (fun idx => (S % 2 ^ 32 % 2 ^ 16 + idx) % 2 ^ 16) =
          (recVals r).map (fun v => (v + S) % wmod true) := by
        refine List.map_congr_left ?_
        intro v _
        show _ = (v + S) % wmod true
        rw [wmod]
        omega
      simp only [mkIndices] at ihh ⊢
      simp only [foldIndex, indexDataStep, indexMergeOut, hshape, mkIndices]
      rw [hmapf, Nat.mod_add_mod, ihh]
      simp only [mergedVals, lastFmt, sumVerts_cons, sumCounts_cons,
        List.append_assoc, mkIndices, Option.some.injEq, Prod.mk.injEq,
        GpuIndexBufferData.Indexed.injEq, Indices.U16.injEq]
      repeat' apply And.intro
      all_goals first | rfl | omega | trivial
    | false =>
      have hmapf : (recVals r).map (fun idx => (S % 2 ^ 32 + idx) % 2 ^ 32) =
          (recVals r).map (fun v => (v + S) % wmod false) := by
        refine List.map_congr_left ?_
        intro v _
        show _ = (v + S) % wmod false
        rw [wmod]
        omega
      simp only [mkIndices] at ihh ⊢
      simp only [foldIndex, indexDataStep, indexMergeOut, hshape, mkIndices]
      rw [hmapf, Nat.mod_add_mod, ihh]
      simp only [mergedVals, lastFmt, sumVerts_cons, sumCounts_cons,
        List.append_assoc, mkIndices, Option.some.injEq, Prod.mk.injEq,
        GpuIndexBufferData.Indexed.injEq, Indices.U32.injEq]
      repeat' apply And.intro
      all_goals first | rfl | omega | trivial

/-- The merged accumulator of a nonempty all-indexed group. -/
theorem indexDataRecs_indexed {b : Bool} {r0 : MeshRecord}
    {rest : List MeshRecord}
    (hwf : ∀ r ∈ r0 :: rest, recWF b r = true) :
    indexDataRecs (r0 :: rest) =
      some (some (.Indexed (mkIndices b (mergedVals b 0 (r0 :: rest)))
        (sumCounts (r0 :: rest) % 2 ^ 32) (lastFmt (recFmt r0) rest))) := by
  have hr := hwf r0 (List.mem_cons_self r0 rest)
  simp only [recWF, Bool.and_eq_true, decide_eq_true_eq,
    List.all_eq_true] at hr
  obtain ⟨⟨hidx, hcnt⟩, hvals⟩ := hr
  have hshape := isIndexedRec_shape hidx
  have hrest : ∀ x ∈ rest, recWF b x = true := fun x hx =>
    hwf x (List.mem_cons_of_mem r0 hx)
  have hstep0 : foldIndex (0, none) (r0 :: rest) =
      foldIndex (r0.vertex_count % 2 ^ 32,
        some (.Indexed (mkIndices b (recVals r0)) (recCount r0) (recFmt r0)))
        rest := by
    simp [foldIndex, indexDataStep, indexMergeOut, hshape]
  have hid : (recVals r0).map (fun v => (v + 0) % wmod b) = recVals r0 := by
    have h1 : (recVals r0).map (fun v => (v + 0) % wmod b) =
        (recVals r0).map id := by
      refine List.map_congr_left ?_
      intro v hv
      simp [Nat.mod_eq_of_lt (hvals v hv)]
    rw [h1, List.map_id]
  unfold indexDataRecs
  rw [hstep0, foldIndex_indexed_inv b rest r0.vertex_count (recVals r0)
    (recCount r0) (recFmt r0) hrest hcnt]
  simp only [Option.map_some', mergedVals, Nat.zero_add, hid, sumCounts_cons]

/-- Invariant of the index_data fold over an all-non-indexed suffix. -/
theorem foldIndex_nonindexed_inv :
    ∀ (rs : List MeshRecord) (S a : Nat),
      (∀ r ∈ rs, nonWF r = true) → a < 2 ^ 32 →
      foldIndex (S % 2 ^ 32, some (.NonIndexed a)) rs =
        some ((S + sumVerts rs) % 2 ^ 32,
          some (.NonIndexed ((a + sumNonVC rs) % 2 ^ 32))) := by
  intro rs
  induction rs with
  | nil =>
    intro S a _ ha
    simp only [foldIndex, sumVerts_nil, sumNonVC_nil, Nat.add_zero,
      Nat.mod_eq_of_lt ha]
  | cons r rs ih =>
    intro S a hwf ha
    have hr := hwf r (List.mem_cons_self r rs)
    simp only [nonWF, Bool.and_eq_true, decide_eq_true_eq] at hr
    obtain ⟨hnon, hvc⟩ := hr
    have hshape := isNonIndexedRec_shape hnon
    have hrest : ∀ x ∈ rs, nonWF x = true := fun x hx =>
      hwf x (List.mem_cons_of_mem r hx)
    simp only [foldIndex, indexDataStep, indexMergeOut, hshape]
    rw [Nat.mod_add_mod]
    rw [ih (S + r.vertex_count) ((recNonVC r + a) % 2 ^ 32) hrest
      (Nat.mod_lt _ (by norm_num))]
    simp only [sumVerts_cons, sumNonVC_cons, Option.some.injEq, Prod.mk.injEq,
      GpuIndexBufferData.NonIndexed.injEq]
    repeat' apply And.intro
    all_goals first | rfl | omega | trivial

/-- The merged accumulator of a nonempty all-non-indexed group. -/
theorem indexDataRecs_nonindexed {r0 : MeshRecord} {rest : List MeshRecord}
    (hwf : ∀ r ∈ r0 :: rest, nonWF r = true) :
    indexDataRecs (r0 :: rest) =
      some (some (.NonIndexed (sumNonVC (r0 :: rest) % 2 ^ 32))) := by
  have hr := hwf r0 (List.mem_cons_self r0 rest)
  simp only [nonWF, Bool.and_eq_true, decide_eq_true_eq] at hr
  obtain ⟨hnon, hvc⟩ := hr
  have hshape := isNonIndexedRec_shape hnon
  have hrest : ∀ x ∈ rest, nonWF x = true := fun x hx =>
    hwf x (List.mem_cons_of_mem r0 hx)
  have hstep0 : foldIndex (0, none) (r0 :: rest) =
      foldIndex (r0.vertex_count % 2 ^ 32, some (.NonIndexed (recNonVC r0)))
        rest := by
    simp [foldIndex, indexDataStep, indexMergeOut, hshape]
  unfold indexDataRecs
  rw [hstep0, foldIndex_nonindexed_inv rest r0.vertex_count (recNonVC r0)
    hrest hvc]
  simp only [Option.map_some', sumNonVC_cons]

/-- The lookup-interleaved fold coincides with the record-level fold once
every member's record is known. -/
theorem indexData_eq_foldIndex {rm : RenderMeshes} :
    ∀ {meshes : List Nat} {rs : List MeshRecord}
      (st : Nat × Option GpuIndexBufferData),
      lookupAll rm meshes = some rs → indexData rm st meshes = foldIndex st rs := by
  intro meshes
  induction meshes with
  | nil =>
    intro rs st hlk
    simp only [lookupAll] at hlk
    obtain rfl := Option.some.inj hlk
    rfl
  | cons h hs ih =>
    intro rs st hlk
    simp only [lookupAll] at hlk
    cases hrm : rm h with
    | none => rw [hrm] at hlk; exact absurd hlk (by simp)
    | some r =>
      rw [hrm] at hlk
      rcases Option.map_eq_some'.mp hlk with ⟨rs', hrs', hcons⟩
      subst hcons
      simp only [indexData, foldIndex, hrm]
      cases hstep : indexDataStep st r with
      | none => rfl
      | some st1 => exact ih st1 hrs'

theorem indexDataOf_eq_recs {rm : RenderMeshes} {meshes : List Nat}
    {rs : List MeshRecord} (hlk : lookupAll rm meshes = some rs) :
    indexDataOf rm meshes = indexDataRecs rs := by
  unfold indexDataOf indexDataRecs
  rw [indexData_eq_foldIndex (0, none) hlk]

/-- C1 (amended): in an indexed group the merged sequence holds, for member
`i`'s raw value `v`, the value `(v + sum of preceding vertex_count) mod 2^w`
(`w` the group's index width — the source adds in wrapping u16/u32 machine
arithmetic); the merged `index_count` is the members' sum mod `2^32`, and the
running `base_index` of a successful fold advances by every member's
`vertex_count` mod `2^32` regardless of the member's variant. -/
theorem c1_index_rebasing (rm : RenderMeshes) (meshes : List Nat) (b : Bool)
    (r0 : MeshRecord) (rest : List MeshRecord)
    (hlk : lookupAll rm meshes = some (r0 :: rest))
    (hwf : ∀ r ∈ r0 :: rest, recWF b r = true) :
    indexDataOf rm meshes =
      some (some (.Indexed (mkIndices b (mergedVals b 0 (r0 :: rest)))
        (sumCounts (r0 :: rest) % 2 ^ 32) (lastFmt (recFmt r0) rest))) ∧
    ∀ (rs : List MeshRecord) (st' : Nat × Option GpuIndexBufferData),
      foldIndex (0, none) rs = some st' → st'.1 = sumVerts rs % 2 ^ 32 := by
  constructor
  · rw [indexDataOf_eq_recs hlk]
    exact indexDataRecs_indexed hwf
  · intro rs st' hfold
    have := foldIndex_fst hfold (by norm_num)
    simpa using this

theorem c1_index_rebasing_witness :
    (indexDataOf rmSpec [0, 1] =
      some (some (.Indexed
        (mkIndices true (mergedVals true 0 [specMeshA, specMeshB]))
        (sumCounts [specMeshA, specMeshB] % 2 ^ 32)
        (lastFmt (recFmt specMeshA) [specMeshB]))) ∧
    ∀ (rs : List MeshRecord) (st' : Nat × Option GpuIndexBufferData),
      foldIndex (0, none) rs = some st' → st'.1 = sumVerts rs % 2 ^ 32) :=
  c1_index_rebasing rmSpec [0, 1] true specMeshA [specMeshB] rfl (by decide)

/-- C1 counterexample: with a first member of 65536 vertices, the claim's
exact re-basing equation predicts a merged second value of `5 + 65536 =
65541`, but the code stores `5`: the shift is applied in 16-bit arithmetic. -/
theorem c1_counterexample :
    indexDataRecs [wrapMeshA, wrapMeshB] =
      some (some (.Indexed (.U16 [0, 5]) 2 .Uint16)) ∧
    indexDataRecs [wrapMeshA, wrapMeshB] ≠
      some (some (.Indexed (.U16 [0, 65541]) 2 .Uint16)) := by
  constructor
  · decide
  · decide

/-- C9 (amended): the merged accumulator of a non-indexed group is
`NonIndexed` with the members' `vertex_count` sum mod `2^32` (the sum
accumulates in wrapping u32 machine arithmetic). -/
theorem c9_nonindexed_sum (rm : RenderMeshes) (meshes : List Nat)
    (r0 : MeshRecord) (rest : List MeshRecord)
    (hlk : lookupAll rm meshes = some (r0 :: rest))
    (hwf : ∀ r ∈ r0 :: rest, nonWF r = true) :
    indexDataOf rm meshes =
      some (some (.NonIndexed (sumNonVC (r0 :: rest) % 2 ^ 32))) := by
  rw [indexDataOf_eq_recs hlk]
  exact indexDataRecs_nonindexed hwf

theorem c9_nonindexed_sum_witness :
    indexDataOf rmNon [0, 2] =
      some (some (.NonIndexed (sumNonVC [bigNonMesh, smallNonMesh] % 2 ^ 32))) :=
  c9_nonindexed_sum rmNon [0, 2] bigNonMesh [smallNonMesh] rfl (by decide)

/-- C9 counterexample: two non-indexed members of `2^31` vertices each merge
to a stored vertex count of `0`, not the claimed exact sum `2^32`. -/
theorem c9_counterexample :
    indexDataRecs [bigNonMesh, bigNonMesh] =
      some (some (.NonIndexed 0)) ∧
    indexDataRecs [bigNonMesh, bigNonMesh] ≠
      some (some (.NonIndexed (2 ^ 31 + 2 ^ 31))) := by
  constructor
  · decide
  · decide

theorem mergedVals_eq_exact {b : Bool} :
    ∀ (rs : List MeshRecord) (base : Nat),
      mergedVals b base rs = (mergedValsExact base rs).map (fun v => v % wmod b) := by
  intro rs
  induction rs with
  | nil => intro base; rfl
  | cons r rs ih =>
    intro base
    simp only [mergedVals, mergedValsExact, List.map_append, List.map_map, ih]
    rfl

/-- C10: in a 16-bit indexed group every merged value is the exact shifted
value `v + sum of preceding vertex_count` reduced mod `2^16` — the running
base (a u32) is truncated by `as u16` and added in 16-bit arithmetic, so
cumulative vertex counts of 65536 or more wrap around. -/
theorem c10_u16_wrap (rm : RenderMeshes) (meshes : List Nat)
    (r0 : MeshRecord) (rest : List MeshRecord)
    (hlk : lookupAll rm meshes = some (r0 :: rest))
    (hwf : ∀ r ∈ r0 :: rest, recWF true r = true) :
    indexDataOf rm meshes =
      some (some (.Indexed
        (.U16 ((mergedValsExact 0 (r0 :: rest)).map (fun v => v % 2 ^ 16)))
        (sumCounts (r0 :: rest) % 2 ^ 32) (lastFmt (recFmt r0) rest))) := by
  rw [indexDataOf_eq_recs hlk, indexDataRecs_indexed hwf, mergedVals_eq_exact]
  simp [mkIndices, wmod]

theorem c10_u16_wrap_witness :
    indexDataOf rmWrap [0, 1] =
      some (some (.Indexed
        (.U16 ((mergedValsExact 0 [wrapMeshA, wrapMeshB]).map
          (fun v => v % 2 ^ 16)))
        (sumCounts [wrapMeshA, wrapMeshB] % 2 ^ 32)
        (lastFmt (recFmt wrapMeshA) [wrapMeshB]))) :=
  c10_u16_wrap rmWrap [0, 1] wrapMeshA [wrapMeshB] rfl (by decide)

/-! Lemmas about the indirect-data stage. -/

theorem indirectIndexed_all {rm : RenderMeshes} :
    ∀ {meshes : List Nat} {rs : List MeshRecord} (base : Nat),
      lookupAll rm meshes = some rs →
      (∀ r ∈ rs, ibdKind r.index_buffer_data = true) →
      indirectIndexed rm base meshes = some (rs.map drawOf) := by
  intro meshes
  induction meshes with
  | nil =>
    intro rs base hlk _
    simp only [lookupAll] at hlk
    obtain rfl := Option.some.inj hlk
    rfl
  | cons h hs ih =>
    intro rs base hlk hall
    simp only [lookupAll] at hlk
    cases hrm : rm h with
    | none => rw [hrm] at hlk; exact absurd hlk (by simp)
    | some r =>
      rw [hrm] at hlk
      rcases Option.map_eq_some'.mp hlk with ⟨rs', hrs', hcons⟩
      subst hcons
      have hk := hall r (List.mem_cons_self r rs')
      cases hibd : r.index_buffer_data with
      | NonIndexed vc => simp [ibdKind, hibd] at hk
      | Indexed ind ic f =>
        have hrest : ∀ x ∈ rs', ibdKind x.index_buffer_data = true :=
          fun x hx => hall x (List.mem_cons_of_mem r hx)
        simp only [indirectIndexed, hrm, hibd]
        rw [ih _ hrs' hrest]
        simp [drawOf, recCount, hibd]

theorem indirectNonIndexed_all {rm : RenderMeshes} :
    ∀ {meshes : List Nat} {rs : List MeshRecord} (base : Nat),
      lookupAll rm meshes = some rs →
      (∀ r ∈ rs, ibdKind r.index_buffer_data = false) →
      indirectNonIndexed rm base meshes = some (rs.map drawNonOf) := by
  intro meshes
  induction meshes with
  | nil =>
    intro rs base hlk _
    simp only [lookupAll] at hlk
    obtain rfl := Option.some.inj hlk
    rfl
  | cons h hs ih =>
    intro rs base hlk hall
    simp only [lookupAll] at hlk
    cases hrm : rm h with
    | none => rw [hrm] at hlk; exact absurd hlk (by simp)
    | some r =>
      rw [hrm] at hlk
      rcases Option.map_eq_some'.mp hlk with ⟨rs', hrs', hcons⟩
      subst hcons
      have hk := hall r (List.mem_cons_self r rs')
      cases hibd : r.index_buffer_data with
      | Indexed ind ic f => simp [ibdKind, hibd] at hk
      | NonIndexed vc =>
        have hrest : ∀ x ∈ rs', ibdKind x.index_buffer_data = false :=
          fun x hx => hall x (List.mem_cons_of_mem r hx)
        simp only [indirectNonIndexed, hrm, hibd]
        rw [ih _ hrs' hrest]
        simp [drawNonOf, recNonVC, hibd]

theorem indirectIndexed_none {rm : RenderMeshes} :
    ∀ {meshes : List Nat} {rs : List MeshRecord} {r : MeshRecord} (base : Nat),
      lookupAll rm meshes = some rs → r ∈ rs →
      ibdKind r.index_buffer_data = false →
      indirectIndexed rm base meshes = none := by
  intro meshes
  induction meshes with
  | nil =>
    intro rs r base hlk hmem _
    simp only [lookupAll] at hlk
    obtain rfl := Option.some.inj hlk
    exact absurd hmem (List.not_mem_nil r)
  | cons h hs ih =>
    intro rs r base hlk hmem hkind
    simp only [lookupAll] at hlk
    cases hrm : rm h with
    | none => rw [hrm] at hlk; exact absurd hlk (by simp)
    | some r0 =>
      rw [hrm] at hlk
      rcases Option.map_eq_some'.mp hlk with ⟨rs', hrs', hcons⟩
      subst hcons
      cases hibd : r0.index_buffer_data with
      | NonIndexed vc => simp [indirectIndexed, hrm, hibd]
      | Indexed ind ic f =>
        have hr : r ∈ rs' := by
          rcases List.mem_cons.mp hmem with rfl | hr
          · rw [hibd] at hkind; simp [ibdKind] at hkind
          · exact hr
        simp only [indirectIndexed, hrm, hibd]
        rw [ih _ hrs' hr hkind]
        rfl

theorem indirectNonIndexed_none {rm : RenderMeshes} :
    ∀ {meshes : List Nat} {rs : List MeshRecord} {r : MeshRecord} (base : Nat),
      lookupAll rm meshes = some rs → r ∈ rs →
      ibdKind r.index_buffer_data = true →
      indirectNonIndexed rm base meshes = none := by
  intro meshes
  induction meshes with
  | nil =>
    intro rs r base hlk hmem _
    simp only [lookupAll] at hlk
    obtain rfl := Option.some.inj hlk
    exact absurd hmem (List.not_mem_nil r)
  | cons h hs ih =>
    intro rs r base hlk hmem hkind
    simp only [lookupAll] at hlk
    cases hrm : rm h with
    | none => rw [hrm] at hlk; exact absurd hlk (by simp)
    | some r0 =>
      rw [hrm] at hlk
      rcases Option.map_eq_some'.mp hlk with ⟨rs', hrs', hcons⟩
      subst hcons
      cases hibd : r0.index_buffer_data with
      | Indexed ind ic f => simp [indirectNonIndexed, hrm, hibd]
      | NonIndexed vc =>
        have hr : r ∈ rs' := by
          rcases List.mem_cons.mp hmem with rfl | hr
          · rw [hibd] at hkind; simp [ibdKind] at hkind
          · exact hr
        simp only [indirectNonIndexed, hrm, hibd]
        rw [ih _ hrs' hr hkind]
        rfl

/-- C8: the indirect buffer has exactly one entry per group member, in group
order; for an indexed signature each entry's count field is that member's
`index_count`, for a non-indexed signature it is that member's
`vertex_count`, and every other argument field is the neutral default. -/
theorem c8_indirect_per_member (rm : RenderMeshes) (key : InstancedMeshKey)
    (meshes : List Nat) (rs : List MeshRecord)
    (hlk : lookupAll rm meshes = some rs) :
    (∀ f, key.index_format = some f →
      (∀ r ∈ rs, ibdKind r.index_buffer_data = true) →
      indirectData rm key meshes = some (.Indexed (rs.map drawOf)) ∧
        (rs.map drawOf).length = meshes.length) ∧
    (key.index_format = none →
      (∀ r ∈ rs, ibdKind r.index_buffer_data = false) →
      indirectData rm key meshes = some (.NonIndexed (rs.map drawNonOf)) ∧
        (rs.map drawNonOf).length = meshes.length) := by
  constructor
  · intro f hkey hall
    constructor
    · simp [indirectData, hkey, indirectIndexed_all 0 hlk hall]
    · simp [lookupAll_length hlk]
  · intro hkey hall
    constructor
    · simp [indirectData, hkey, indirectNonIndexed_all 0 hlk hall]
    · simp [lookupAll_length hlk]

theorem c8_indirect_per_member_witness :
    ((∀ f, keyU16.index_format = some f →
      (∀ r ∈ [specMeshA, specMeshB], ibdKind r.index_buffer_data = true) →
      indirectData rmSpec keyU16 [0, 1] =
          some (.Indexed ([specMeshA, specMeshB].map drawOf)) ∧
        ([specMeshA, specMeshB].map drawOf).length = [0, 1].length) ∧
    (keyU16.index_format = none →
      (∀ r ∈ [specMeshA, specMeshB], ibdKind r.index_buffer_data = false) →
      indirectData rmSpec keyU16 [0, 1] =
          some (.NonIndexed ([specMeshA, specMeshB].map drawNonOf)) ∧
        ([specMeshA, specMeshB].map drawNonOf).length = [0, 1].length)) :=
  c8_indirect_per_member rmSpec keyU16 [0, 1] [specMeshA, specMeshB] rfl

/-! Kind and width coherence of a successful index merge, for C2. -/

theorem indexMergeOut_first (base : Nat) (ibd : GpuIndexBufferData) :
    indexMergeOut none base ibd = some (some ibd) := by
  cases ibd <;> rfl

theorem indexMergeOut_coherent {d : GpuIndexBufferData} {base : Nat}
    {ibd : GpuIndexBufferData} {o : Option GpuIndexBufferData}
    (h : indexMergeOut (some d) base ibd = some o) :
    ibdKind ibd = ibdKind d ∧ ibdWidth ibd = ibdWidth d ∧
      ∃ d1, o = some d1 ∧ ibdKind d1 = ibdKind d ∧ ibdWidth d1 = ibdWidth d := by
  cases ibd with
  | Indexed ind ic f =>
    cases d with
    | NonIndexed dvc => simp [indexMergeOut] at h
    | Indexed dind dc df =>
      cases ind with
      | U16 v =>
        cases dind with
        | U32 dv => simp [indexMergeOut] at h
        | U16 dv =>
          obtain rfl := Option.some.inj h
          exact ⟨rfl, rfl, _, rfl, rfl, rfl⟩
      | U32 v =>
        cases dind with
        | U16 dv => simp [indexMergeOut] at h
        | U32 dv =>
          obtain rfl := Option.some.inj h
          exact ⟨rfl, rfl, _, rfl, rfl, rfl⟩
  | NonIndexed vc =>
    cases d with
    | Indexed dind dc df => simp [indexMergeOut] at h
    | NonIndexed dvc =>
      obtain rfl := Option.some.inj h
      exact ⟨rfl, rfl, _, rfl, rfl, rfl⟩

theorem foldIndex_coherent :
    ∀ {rs : List MeshRecord} {S : Nat} {d : GpuIndexBufferData}
      {out : Nat × Option GpuIndexBufferData},
      foldIndex (S, some d) rs = some out →
      ∀ r ∈ rs, ibdKind r.index_buffer_data = ibdKind d ∧
        ibdWidth r.index_buffer_data = ibdWidth d := by
  intro rs
  induction rs with
  | nil => intro S d out _ r hr; exact absurd hr (List.not_mem_nil r)
  | cons r0 rs ih =>
    intro S d out hfold r hr
    simp only [foldIndex] at hfold
    cases hstep : indexDataStep (S, some d) r0 with
    | none => rw [hstep] at hfold; exact Option.noConfusion hfold
    | some st1 =>
      rw [hstep] at hfold
      unfold indexDataStep at hstep
      cases hout : indexMergeOut (S, some d).2 (S, some d).1 r0.index_buffer_data with
      | none => rw [hout] at hstep; exact Option.noConfusion hstep
      | some o =>
        rw [hout] at hstep
        obtain rfl := Option.some.inj hstep
        obtain ⟨hk0, hw0, d1, rfl, hk1, hw1⟩ := indexMergeOut_coherent hout
        rcases List.mem_cons.mp hr with rfl | hr'
        · exact ⟨hk0, hw0⟩
        · obtain ⟨hk, hw⟩ := ih hfold r hr'
          exact ⟨hk.trans hk1, hw.trans hw1⟩

theorem foldIndex_head_coherent {r0 : MeshRecord} {rest : List MeshRecord}
    {out : Nat × Option GpuIndexBufferData}
    (h : foldIndex (0, none) (r0 :: rest) = some out) :
    ∀ r ∈ rest, ibdKind r.index_buffer_data = ibdKind r0.index_buffer_data ∧
      ibdWidth r.index_buffer_data = ibdWidth r0.index_buffer_data := by
  have hstep : indexDataStep (0, none) r0 =
      some ((0 + r0.vertex_count) % 2 ^ 32, some r0.index_buffer_data) := by
    unfold indexDataStep
    rw [indexMergeOut_first]
  simp only [foldIndex, hstep] at h
  exact foldIndex_coherent h

/-- C2 (amended): a group mixing an `Indexed` and a `NonIndexed` member makes
both the index-merge stage and the indirect-argument stage panic; a group of
two indexed members with different index widths makes the index-merge stage
panic (so the pass still aborts), but the indirect-argument stage inspects
only the indexed/non-indexed kind and does not itself detect a width
mismatch. -/
theorem c2_mismatch_panics (rm : RenderMeshes) (key : InstancedMeshKey)
    (meshes : List Nat) (rs : List MeshRecord) (r1 r2 : MeshRecord)
    (hlk : lookupAll rm meshes = some rs) (h1 : r1 ∈ rs) (h2 : r2 ∈ rs) :
    (ibdKind r1.index_buffer_data = true →
      ibdKind r2.index_buffer_data = false →
      indexDataOf rm meshes = none ∧ indirectData rm key meshes = none) ∧
    (ibdWidth r1.index_buffer_data = some true →
      ibdWidth r2.index_buffer_data = some false →
      indexDataOf rm meshes = none) := by
  have hnone : (ibdKind r1.index_buffer_data ≠ ibdKind r2.index_buffer_data ∨
      ibdWidth r1.index_buffer_data ≠ ibdWidth r2.index_buffer_data) →
      indexDataOf rm meshes = none := by
    intro hdiff
    rw [indexDataOf_eq_recs hlk]
    unfold indexDataRecs
    cases hf : foldIndex (0, none) rs with
    | none => rfl
    | some out =>
      exfalso
      cases rs with
      | nil => exact absurd h1 (List.not_mem_nil r1)
      | cons r0 rest =>
        have hall : ∀ r ∈ r0 :: rest,
            ibdKind r.index_buffer_data = ibdKind r0.index_buffer_data ∧
            ibdWidth r.index_buffer_data = ibdWidth r0.index_buffer_data := by
          intro r hr
          rcases List.mem_cons.mp hr with rfl | hr'
          · exact ⟨rfl, rfl⟩
          · exact foldIndex_head_coherent hf r hr'
        obtain ⟨hk1, hw1⟩ := hall r1 h1
        obtain ⟨hk2, hw2⟩ := hall r2 h2
        rcases hdiff with hd | hd
        · exact hd (hk1.trans hk2.symm)
        · exact hd (hw1.trans hw2.symm)
  constructor
  · intro ha hb
    refine ⟨hnone (Or.inl (by rw [ha, hb]; simp)), ?_⟩
    cases hkey : key.index_format with
    | some f => simp [indirectData, hkey, indirectIndexed_none 0 hlk h2 hb]
    | none => simp [indirectData, hkey, indirectNonIndexed_none 0 hlk h1 ha]
  · intro ha hb
    exact hnone (Or.inr (by rw [ha, hb]; simp))

theorem c2_mismatch_panics_witness :
    ((ibdKind specMeshA.index_buffer_data = true →
      ibdKind smallNonMesh.index_buffer_data = false →
      indexDataOf rmKind [0, 1] = none ∧
        indirectData rmKind keyU16 [0, 1] = none) ∧
    (ibdWidth specMeshA.index_buffer_data = some true →
      ibdWidth smallNonMesh.index_buffer_data = some false →
      indexDataOf rmKind [0, 1] = none)) :=
  c2_mismatch_panics rmKind keyU16 [0, 1] [specMeshA, smallNonMesh]
    specMeshA smallNonMesh rfl (by decide) (by decide)

/-- C2 counterexample: a group of two indexed members with different index
widths.  The index-merge stage panics, but the indirect-argument-synthesis
stage succeeds (it only checks the indexed/non-indexed kind), so the claim
that both stages fail fatally is false for a width mismatch. -/
theorem c2_counterexample :
    indexDataOf rmWidth [0, 1] = none ∧
      indirectData rmWidth keyU16 [0, 1] =
        some (.Indexed [⟨6, 0, 0, 0, 0⟩, ⟨2, 0, 0, 0, 0⟩]) := by
  constructor
  · decide
  · decide

/-! Lemmas about the keying stage. -/

theorem mem_insertMesh {a m : Nat} :
    ∀ {l : List Nat}, a ∈ insertMesh m l ↔ a = m ∨ a ∈ l := by
  intro l
  induction l with
  | nil => simp [insertMesh]
  | cons x xs ih =>
    by_cases h1 : m < x
    · simp [insertMesh, h1]
    · by_cases h2 : m = x
      · subst h2
        simp only [insertMesh, if_neg h1, if_pos rfl]
        constructor
        · exact fun h => Or.inr h
        · rintro (rfl | h)
          · exact List.mem_cons_self a xs
          · exact h
      · simp only [insertMesh, if_neg h1, if_neg h2, List.mem_cons, ih]
        tauto

theorem insertMesh_ne_nil {m : Nat} : ∀ {l : List Nat}, insertMesh m l ≠ [] := by
  intro l
  cases l with
  | nil => simp [insertMesh]
  | cons x xs =>
    by_cases h1 : m < x
    · simp [insertMesh, h1]
    · by_cases h2 : m = x
      · simp [insertMesh, h1, h2]
      · simp [insertMesh, h1, h2]

theorem pairwise_insertMesh {m : Nat} :
    ∀ {l : List Nat}, l.Pairwise (· < ·) → (insertMesh m l).Pairwise (· < ·) := by
  intro l
  induction l with
  | nil => intro _; simp [insertMesh]
  | cons x xs ih =>
    intro hp
    rw [List.pairwise_cons] at hp
    obtain ⟨hx, hxs⟩ := hp
    by_cases h1 : m < x
    · simp only [insertMesh, if_pos h1]
      rw [List.pairwise_cons]
      refine ⟨?_, List.pairwise_cons.mpr ⟨hx, hxs⟩⟩
      intro a ha
      rcases List.mem_cons.mp ha with rfl | ha'
      · exact h1
      · exact h1.trans (hx a ha')
    · by_cases h2 : m = x
      · subst h2
        simp only [insertMesh, if_neg h1, if_pos rfl]
        exact List.pairwise_cons.mpr ⟨hx, hxs⟩
      · simp only [insertMesh, if_neg h1, if_neg h2]
        rw [List.pairwise_cons]
        refine ⟨?_, ih hxs⟩
        intro a ha
        rcases mem_insertMesh.mp ha with rfl | ha'
        · omega
        · exact hx a ha'

theorem fmtCode_lt (f : Option IndexFormat) : fmtCode f < 4 := by
  rcases f with _ | f
  · simp [fmtCode]
  · cases f <;> simp [fmtCode]

theorem fmtCode_inj {f1 f2 : Option IndexFormat}
    (h : fmtCode f1 = fmtCode f2) : f1 = f2 := by
  rcases f1 with _ | f1 <;> rcases f2 with _ | f2
  · rfl
  · cases f2 <;> simp [fmtCode] at h
  · cases f1 <;> simp [fmtCode] at h
  · cases f1 <;> cases f2 <;> simp [fmtCode] at h <;> rfl

theorem enc_inj {k1 k2 : InstancedMeshKey} (h : k1.enc = k2.enc) : k1 = k2 := by
  obtain ⟨l1, f1⟩ := k1
  obtain ⟨l2, f2⟩ := k2
  have h' : 4 * l1 + fmtCode f1 = 4 * l2 + fmtCode f2 := h
  have e1 := fmtCode_lt f1
  have e2 := fmtCode_lt f2
  have hl : l1 = l2 := by omega
  have hf : fmtCode f1 = fmtCode f2 := by omega
  subst hl
  obtain rfl := fmtCode_inj hf
  rfl

theorem tlookup_nil_of_forall_ne {k : InstancedMeshKey} :
    ∀ {t : List (InstancedMeshKey × List Nat)},
      (∀ p ∈ t, k ≠ p.1) → tlookup k t = [] := by
  intro t
  induction t with
  | nil => intro _; rfl
  | cons p t ih =>
    intro hne
    obtain ⟨k0, g0⟩ := p
    have h0 : k ≠ k0 := hne (k0, g0) (List.mem_cons_self _ _)
    simp only [tlookup, if_neg h0]
    exact ih fun q hq => hne q (List.mem_cons_of_mem _ hq)

theorem exists_of_tlookup_ne_nil {k : InstancedMeshKey} :
    ∀ {t : List (InstancedMeshKey × List Nat)},
      tlookup k t ≠ [] → ∃ p ∈ t, p.1 = k := by
  intro t
  induction t with
  | nil => intro h; exact absurd rfl h
  | cons p t ih =>
    intro h
    obtain ⟨k0, g0⟩ := p
    by_cases h0 : k = k0
    · exact ⟨(k0, g0), List.mem_cons_self _ _, h0.symm⟩
    · simp only [tlookup, if_neg h0] at h
      obtain ⟨q, hq, hqk⟩ := ih h
      exact ⟨q, List.mem_cons_of_mem _ hq, hqk⟩

theorem tableWF_nil : TableWF [] := ⟨List.Pairwise.nil, by simp⟩

theorem tableWF_tail {p : InstancedMeshKey × List Nat}
    {t : List (InstancedMeshKey × List Nat)} (h : TableWF (p :: t)) :
    TableWF t :=
  ⟨(List.pairwise_cons.mp h.1).2, fun q hq => h.2 q (List.mem_cons_of_mem _ hq)⟩

theorem keys_insertKeyed {k : InstancedMeshKey} {m : Nat} :
    ∀ {t : List (InstancedMeshKey × List Nat)} {p : InstancedMeshKey × List Nat},
      p ∈ insertKeyed k m t → p.1 = k ∨ p ∈ t := by
  intro t
  induction t with
  | nil =>
    intro p hp
    simp only [insertKeyed, List.mem_singleton] at hp
    subst hp
    exact Or.inl rfl
  | cons q t ih =>
    intro p hp
    obtain ⟨k0, g0⟩ := q
    by_cases h1 : k.enc < k0.enc
    · simp only [insertKeyed, if_pos h1, List.mem_cons] at hp
      rcases hp with rfl | hp
      · exact Or.inl rfl
      · exact Or.inr (List.mem_cons.mpr (by simpa using hp))
    · by_cases h2 : k.enc = k0.enc
      · have hk : k = k0 := enc_inj h2
        simp only [insertKeyed, if_neg h1, if_pos h2, List.mem_cons] at hp
        rcases hp with rfl | hp
        · exact Or.inl hk.symm
        · exact Or.inr (List.mem_cons_of_mem _ hp)
      · simp only [insertKeyed, if_neg h1, if_neg h2, List.mem_cons] at hp
        rcases hp with rfl | hp
        · exact Or.inr (List.mem_cons_self _ _)
        · rcases ih hp with h | h
          · exact Or.inl h
          · exact Or.inr (List.mem_cons_of_mem _ h)

theorem tableWF_insertKeyed {k : InstancedMeshKey} {m : Nat} :
    ∀ {t : List (InstancedMeshKey × List Nat)},
      TableWF t → TableWF (insertKeyed k m t) := by
  intro t
  induction t with
  | nil =>
    intro _
    refine ⟨by simp [insertKeyed], ?_⟩
    intro p hp
    simp only [insertKeyed, List.mem_singleton] at hp
    subst hp
    exact ⟨by simp, by simp⟩
  | cons q t ih =>
    intro hWF
    obtain ⟨k0, g0⟩ := q
    have hWFt : TableWF t := tableWF_tail hWF
    have hkeys : ∀ p ∈ t, k0.enc < p.1.enc := (List.pairwise_cons.mp hWF.1).1
    by_cases h1 : k.enc < k0.enc
    · simp only [insertKeyed, if_pos h1]
      refine ⟨?_, ?_⟩
      · rw [List.pairwise_cons]
        refine ⟨?_, hWF.1⟩
        intro p hp
        rcases List.mem_cons.mp hp with rfl | hp'
        · exact h1
        · exact h1.trans (hkeys p hp')
      · intro p hp
        rcases List.mem_cons.mp hp with rfl | hp'
        · exact ⟨by simp, by simp⟩
        · exact hWF.2 p hp'
    · by_cases h2 : k.enc = k0.enc
      · simp only [insertKeyed, if_neg h1, if_pos h2]
        refine ⟨?_, ?_⟩
        · rw [List.pairwise_cons]
          exact ⟨fun p hp => hkeys p hp, (List.pairwise_cons.mp hWF.1).2⟩
        · intro p hp
          rcases List.mem_cons.mp hp with rfl | hp'
          · have hg := hWF.2 (k0, g0) (List.mem_cons_self _ _)
            exact ⟨pairwise_insertMesh hg.1, insertMesh_ne_nil⟩
          · exact hWF.2 p (List.mem_cons_of_mem _ hp')
      · simp only [insertKeyed, if_neg h1, if_neg h2]
        have hlt : k0.enc < k.enc := by omega
        obtain ⟨ihp, ihg⟩ := ih hWFt
        refine ⟨?_, ?_⟩
        · rw [List.pairwise_cons]
          refine ⟨?_, ihp⟩
          intro p hp
          rcases keys_insertKeyed hp with h | h
          · rw [h]; exact hlt
          · exact hkeys p h
        · intro p hp
          rcases List.mem_cons.mp hp with rfl | hp'
          · exact hWF.2 (k0, g0) (List.mem_cons_self _ _)
          · exact ihg p hp'

theorem tlookup_insertKeyed {k : InstancedMeshKey} {m : Nat} :
    ∀ {t : List (InstancedMeshKey × List Nat)}, TableWF t →
      ∀ k', tlookup k' (insertKeyed k m t) =
        if k' = k then insertMesh m (tlookup k t) else tlookup k' t := by
  intro t
  induction t with
  | nil =>
    intro _ k'
    by_cases hk : k' = k
    · simp [insertKeyed, tlookup, hk, insertMesh]
    · simp [insertKeyed, tlookup, hk]
  | cons q t ih =>
    intro hWF k'
    obtain ⟨k0, g0⟩ := q
    have hWFt : TableWF t := tableWF_tail hWF
    have hkeys : ∀ p ∈ t, k0.enc < p.1.enc := (List.pairwise_cons.mp hWF.1).1
    by_cases h1 : k.enc < k0.enc
    · have hkk0 : k ≠ k0 := fun he => by rw [he] at h1; omega
      have htnil : tlookup k t = [] := by
        refine tlookup_nil_of_forall_ne ?_
        intro p hp
        intro he
        have := hkeys p hp
        rw [← he] at this
        omega
      simp only [insertKeyed, if_pos h1]
      by_cases hk : k' = k
      · subst hk
        simp [tlookup, hkk0, htnil, insertMesh]
      · simp [tlookup, hk]
    · by_cases h2 : k.enc = k0.enc
      · have hk0 : k = k0 := enc_inj h2
        subst hk0
        simp only [insertKeyed, if_neg h1, if_pos rfl]
        by_cases hk : k' = k
        · subst hk
          simp [tlookup]
        · simp [tlookup, hk]
      · have hkk0 : k ≠ k0 := fun he => by rw [he] at h2; omega
        have hk0k : ¬(k0 = k) := fun he => hkk0 he.symm
        simp only [insertKeyed, if_neg h1, if_neg h2]
        by_cases hk : k' = k
        · subst hk
          simp [tlookup, hkk0, ih hWFt]
        · by_cases hk0 : k' = k0
          · subst hk0
            simp [tlookup, hk]
          · simp [tlookup, hk0, hk, ih hWFt]

theorem keyMeshes_eq_none_iff {rm : RenderMeshes} :
    ∀ {refs : List Nat} {t : List (InstancedMeshKey × List Nat)},
      keyMeshes rm t refs = none ↔ ∃ h ∈ refs, rm h = none := by
  intro refs
  induction refs with
  | nil => intro t; simp [keyMeshes]
  | cons x xs ih =>
    intro t
    cases hx : rm x with
    | none =>
      simp only [keyMeshes, hx]
      constructor
      · intro _; exact ⟨x, List.mem_cons_self _ _, hx⟩
      · intro _; trivial
    | some r =>
      simp only [keyMeshes, hx]
      rw [ih]
      constructor
      · rintro ⟨h, hh, hmiss⟩
        exact ⟨h, List.mem_cons_of_mem _ hh, hmiss⟩
      · rintro ⟨h, hh, hmiss⟩
        rcases List.mem_cons.mp hh with rfl | hh'
        · rw [hx] at hmiss; exact Option.noConfusion hmiss
        · exact ⟨h, hh', hmiss⟩

theorem keyMeshes_WF {rm : RenderMeshes} :
    ∀ {refs : List Nat} {t t' : List (InstancedMeshKey × List Nat)},
      TableWF t → keyMeshes rm t refs = some t' → TableWF t' := by
  intro refs
  induction refs with
  | nil =>
    intro t t' hWF h
    simp only [keyMeshes] at h
    obtain rfl := Option.some.inj h
    exact hWF
  | cons x xs ih =>
    intro t t' hWF h
    simp only [keyMeshes] at h
    cases hx : rm x with
    | none => rw [hx] at h; exact Option.noConfusion h
    | some r =>
      rw [hx] at h
      exact ih (tableWF_insertKeyed hWF) h

theorem keyMeshes_mem {rm : RenderMeshes} :
    ∀ {refs : List Nat} {t t' : List (InstancedMeshKey × List Nat)},
      TableWF t → keyMeshes rm t refs = some t' →
      ∀ (k : InstancedMeshKey) (m : Nat),
        m ∈ tlookup k t' ↔
          m ∈ tlookup k t ∨ (m ∈ refs ∧ ∃ r, rm m = some r ∧ r.key = k) := by
  intro refs
  induction refs with
  | nil =>
    intro t t' hWF h k m
    simp only [keyMeshes] at h
    obtain rfl := Option.some.inj h
    simp
  | cons x xs ih =>
    intro t t' hWF h k m
    simp only [keyMeshes] at h
    cases hx : rm x with
    | none => rw [hx] at h; exact Option.noConfusion h
    | some rx =>
      rw [hx] at h
      rw [ih (tableWF_insertKeyed hWF) h k m, tlookup_insertKeyed hWF k]
      constructor
      · rintro (h1 | ⟨hm, hr⟩)
        · by_cases hkx : k = rx.key
          · rw [if_pos hkx] at h1
            rcases mem_insertMesh.mp h1 with rfl | h2
            · exact Or.inr ⟨List.mem_cons_self _ _, rx, hx, hkx.symm⟩
            · left; rw [hkx]; exact h2
          · rw [if_neg hkx] at h1
            exact Or.inl h1
        · exact Or.inr ⟨List.mem_cons_of_mem _ hm, hr⟩
      · rintro (h1 | ⟨hm, r, hrm, hrk⟩)
        · left
          by_cases hkx : k = rx.key
          · rw [if_pos hkx]
            refine mem_insertMesh.mpr (Or.inr ?_)
            rw [← hkx]
            exact h1
          · rw [if_neg hkx]
            exact h1
        · rcases List.mem_cons.mp hm with rfl | hm'
          · left
            rw [hx] at hrm
            obtain rfl := Option.some.inj hrm
            rw [if_pos hrk.symm]
            exact mem_insertMesh.mpr (Or.inl rfl)
          · exact Or.inr ⟨hm', r, hrm, hrk⟩

theorem keyedMeshes_WF {rm : RenderMeshes} {refs : List Nat}
    {t : List (InstancedMeshKey × List Nat)}
    (h : keyedMeshes rm refs = some t) : TableWF t :=
  keyMeshes_WF tableWF_nil h

theorem keyedMeshes_mem {rm : RenderMeshes} {refs : List Nat}
    {t : List (InstancedMeshKey × List Nat)}
    (h : keyedMeshes rm refs = some t) :
    ∀ (k : InstancedMeshKey) (m : Nat),
      m ∈ tlookup k t ↔ m ∈ refs ∧ ∃ r, rm m = some r ∧ r.key = k := by
  intro k m
  have hh := keyMeshes_mem tableWF_nil h k m
  simpa [tlookup] using hh

theorem tlookup_pairwise {k : InstancedMeshKey} :
    ∀ {t : List (InstancedMeshKey × List Nat)},
      TableWF t → (tlookup k t).Pairwise (· < ·) := by
  intro t
  induction t with
  | nil => intro _; simp [tlookup]
  | cons p t ih =>
    intro hWF
    obtain ⟨k0, g0⟩ := p
    by_cases hk : k = k0
    · simp only [tlookup, if_pos hk]
      exact (hWF.2 (k0, g0) (List.mem_cons_self _ _)).1
    · simp only [tlookup, if_neg hk]
      exact ih (tableWF_tail hWF)

/-- Two strictly increasing lists with the same members are equal. -/
theorem sorted_ext :
    ∀ {l1 l2 : List Nat}, l1.Pairwise (· < ·) → l2.Pairwise (· < ·) →
      (∀ x, x ∈ l1 ↔ x ∈ l2) → l1 = l2 := by
  intro l1
  induction l1 with
  | nil =>
    intro l2 _ _ hmem
    cases l2 with
    | nil => rfl
    | cons y ys =>
      exact absurd ((hmem y).mpr (List.mem_cons_self y ys)) (List.not_mem_nil y)
  | cons x xs ih =>
    intro l2 hp1 hp2 hmem
    cases l2 with
    | nil => exact absurd ((hmem x).mp (List.mem_cons_self x xs)) (List.not_mem_nil x)
    | cons y ys =>
      have hx1 := (List.pairwise_cons.mp hp1).1
      have hy1 := (List.pairwise_cons.mp hp2).1
      have hxy : x = y := by
        have hx2 : x ∈ y :: ys := (hmem x).mp (List.mem_cons_self _ _)
        have hy2 : y ∈ x :: xs := (hmem y).mpr (List.mem_cons_self _ _)
        rcases List.mem_cons.mp hx2 with h | h
        · exact h
        · rcases List.mem_cons.mp hy2 with h' | h'
          · exact h'.symm
          · have e1 := hy1 x h
            have e2 := hx1 y h'
            omega
      subst hxy
      have htail : ∀ z, z ∈ xs ↔ z ∈ ys := by
        intro z
        constructor
        · intro hz
          have hlt := hx1 z hz
          have hz2 : z ∈ x :: ys := (hmem z).mp (List.mem_cons_of_mem _ hz)
          rcases List.mem_cons.mp hz2 with rfl | h
          · omega
          · exact h
        · intro hz
          have hlt := hy1 z hz
          have hz2 : z ∈ x :: xs := (hmem z).mpr (List.mem_cons_of_mem _ hz)
          rcases List.mem_cons.mp hz2 with rfl | h
          · omega
          · exact h
      rw [ih (List.pairwise_cons.mp hp1).2 (List.pairwise_cons.mp hp2).2 htail]

/-- Two wellformed keyed tables with the same lookup function are equal. -/
theorem table_ext :
    ∀ {t1 t2 : List (InstancedMeshKey × List Nat)},
      TableWF t1 → TableWF t2 → (∀ k, tlookup k t1 = tlookup k t2) → t1 = t2 := by
  intro t1
  induction t1 with
  | nil =>
    intro t2 _ hWF2 hlk
    cases t2 with
    | nil => rfl
    | cons p t2' =>
      obtain ⟨k2, g2⟩ := p
      exfalso
      have hne := (hWF2.2 (k2, g2) (List.mem_cons_self _ _)).2
      have h2 := hlk k2
      simp only [tlookup, if_pos rfl] at h2
      exact hne h2.symm
  | cons p t1' ih =>
    intro t2 hWF1 hWF2 hlk
    obtain ⟨k1, g1⟩ := p
    cases t2 with
    | nil =>
      exfalso
      have hne := (hWF1.2 (k1, g1) (List.mem_cons_self _ _)).2
      have h1 := hlk k1
      simp only [tlookup, if_pos rfl] at h1
      exact hne h1
    | cons q t2' =>
      obtain ⟨k2, g2⟩ := q
      have hg1 : tlookup k1 ((k1, g1) :: t1') = g1 := by simp [tlookup]
      have hg2 : tlookup k2 ((k2, g2) :: t2') = g2 := by simp [tlookup]
      have hne1 := (hWF1.2 (k1, g1) (List.mem_cons_self _ _)).2
      have hne2 := (hWF2.2 (k2, g2) (List.mem_cons_self _ _)).2
      have hkeys1 : ∀ p ∈ t1', k1.enc < p.1.enc := (List.pairwise_cons.mp hWF1.1).1
      have hkeys2 : ∀ p ∈ t2', k2.enc < p.1.enc := (List.pairwise_cons.mp hWF2.1).1
      have hk12 : k1 = k2 := by
        by_contra hne
        have h1 : tlookup k1 ((k2, g2) :: t2') ≠ [] := by
          rw [← hlk k1, hg1]; exact hne1
        obtain ⟨p1, hp1, hp1k⟩ := exists_of_tlookup_ne_nil h1
        have h2 : tlookup k2 ((k1, g1) :: t1') ≠ [] := by
          rw [hlk k2, hg2]; exact hne2
        obtain ⟨p2, hp2, hp2k⟩ := exists_of_tlookup_ne_nil h2
        rcases List.mem_cons.mp hp1 with rfl | hp1'
        · exact hne hp1k.symm
        · have e1 : k2.enc < k1.enc := by
            have := hkeys2 p1 hp1'
            rw [hp1k] at this
            exact this
          rcases List.mem_cons.mp hp2 with rfl | hp2'
          · exact hne hp2k
          · have e2 : k1.enc < k2.enc := by
              have := hkeys1 p2 hp2'
              rw [hp2k] at this
              exact this
            omega
      subst hk12
      have hgg : g1 = g2 := by rw [← hg1, hlk k1, hg2]
      subst hgg
      have htail : ∀ k, tlookup k t1' = tlookup k t2' := by
        intro k
        by_cases hk : k = k1
        · subst hk
          have e1 : tlookup k t1' = [] := by
            refine tlookup_nil_of_forall_ne ?_
            intro p hp he
            have := hkeys1 p hp
            rw [← he] at this
            omega
          have e2 : tlookup k t2' = [] := by
            refine tlookup_nil_of_forall_ne ?_
            intro p hp he
            have := hkeys2 p hp
            rw [← he] at this
            omega
          rw [e1, e2]
        · have hh := hlk k
          simp only [tlookup, if_neg hk] at hh
          exact hh
      rw [ih (tableWF_tail hWF1) (tableWF_tail hWF2) htail]

/-- C6: the keying stage is deterministic and canonical: permuting the input
reference stream does not change the keyed table at all, and every emitted
table is sorted by the key total order with each group a strictly increasing
(hence insertion-order-independent, duplicate-free) set of mesh identities. -/
theorem c6_keying_deterministic (rm : RenderMeshes) (refs refs' : List Nat)
    (hperm : refs.Perm refs') :
    keyedMeshes rm refs = keyedMeshes rm refs' ∧
      ∀ t, keyedMeshes rm refs = some t → TableWF t := by
  refine ⟨?_, fun t ht => keyedMeshes_WF ht⟩
  cases h1 : keyedMeshes rm refs with
  | none =>
    obtain ⟨h, hh, hmiss⟩ := keyMeshes_eq_none_iff.mp h1
    exact (keyMeshes_eq_none_iff.mpr ⟨h, hperm.subset hh, hmiss⟩).symm
  | some t1 =>
    cases h2 : keyedMeshes rm refs' with
    | none =>
      obtain ⟨h, hh, hmiss⟩ := keyMeshes_eq_none_iff.mp h2
      have hcontra : keyedMeshes rm refs = none :=
        keyMeshes_eq_none_iff.mpr ⟨h, hperm.symm.subset hh, hmiss⟩
      rw [h1] at hcontra
      exact Option.noConfusion hcontra
    | some t2 =>
      have hWF1 := keyedMeshes_WF h1
      have hWF2 := keyedMeshes_WF h2
      congr 1
      refine table_ext hWF1 hWF2 ?_
      intro k
      refine sorted_ext (tlookup_pairwise hWF1) (tlookup_pairwise hWF2) ?_
      intro m
      rw [keyedMeshes_mem h1 k m, keyedMeshes_mem h2 k m]
      constructor
      · rintro ⟨hm, hr⟩; exact ⟨hperm.subset hm, hr⟩
      · rintro ⟨hm, hr⟩; exact ⟨hperm.symm.subset hm, hr⟩

theorem c6_keying_deterministic_witness :
    (keyedMeshes rmSpec [1, 0] = keyedMeshes rmSpec [0, 1] ∧
      ∀ t, keyedMeshes rmSpec [1, 0] = some t → TableWF t) :=
  c6_keying_deterministic rmSpec [1, 0] [0, 1] (List.Perm.swap 0 1 [])

/-- C5: a mesh identity referenced any number of times appears exactly once
in the group keyed by its record's signature, and in no other group. -/
theorem c5_dedup_once (rm : RenderMeshes) (refs : List Nat) (m : Nat)
    (r : MeshRecord) (t : List (InstancedMeshKey × List Nat))
    (hrm : rm m = some r) (hmem : m ∈ refs)
    (ht : keyedMeshes rm refs = some t) :
    (tlookup r.key t).count m = 1 ∧
      ∀ k', k' ≠ r.key → m ∉ tlookup k' t := by
  have hin : m ∈ tlookup r.key t :=
    (keyedMeshes_mem ht r.key m).mpr ⟨hmem, r, hrm, rfl⟩
  constructor
  · have hnd : (tlookup r.key t).Nodup :=
      (tlookup_pairwise (keyedMeshes_WF ht)).imp fun h => Nat.ne_of_lt h
    exact List.count_eq_one_of_mem hnd hin
  · intro k' hk' hcontra
    obtain ⟨_, r', hr', hk⟩ := (keyedMeshes_mem ht k' m).mp hcontra
    rw [hrm] at hr'
    obtain rfl := Option.some.inj hr'
    exact hk' hk.symm

theorem c5_dedup_once_witness :
    ((tlookup specMeshA.key [(keyU16, [0, 1])]).count 0 = 1 ∧
      ∀ k', k' ≠ specMeshA.key → 0 ∉ tlookup k' [(keyU16, [0, 1])]) :=
  c5_dedup_once rmSpec [0, 1, 0] 0 specMeshA [(keyU16, [0, 1])] rfl
    (by decide) rfl

end BevyInstancing
